import Mathlib

/-!
Shallow embedding of the crossword CSP solver in `generate.py`
(class `CrosswordCreator`): domain initialization, node consistency,
AC-3 style arc-consistency propagation (`revise` / `ac3`) and the
heuristic backtracking search (`select_unassigned_variable`,
`order_domain_values`, `consistent`, `backtrack`, `solve`).

Python's mutable state is embedded by explicit state passing:
`self.domains` becomes a value of type `Domains` threaded through the
functions, and the mutable `assignment` dict of `backtrack` becomes an
association list threaded through `backtrackS`/`tryValues`.  Python
sets are embedded as lists carrying their (otherwise unspecified)
iteration order; set-removal is `List.filter`.  A fallible computation
returns `Option`: `none` marks an abnormal outcome (a raised exception
or exhausted recursion fuel), proven unreachable under the documented
preconditions.
-/

namespace CrosswordCSP

/-- Modelled from the spec: orientation of a slot (the `crossword` module
with class `Variable` is not under `src/`); spec section 3 gives a Variable
an orientation that is one of ACROSS, DOWN. -/
inductive Direction where
  | across
  | down
deriving DecidableEq

/-- Modelled from the spec: a crossword slot, identified by origin cell
(row `i`, column `j`), orientation and positive length; equality is by
these four components (spec section 3, "Variable"). -/
structure Variable where
  i : Nat
  j : Nat
  direction : Direction
  length : Nat
deriving DecidableEq

/-- A candidate word. -/
abbrev Word := String

/-- Modelled from the spec: the Puzzle Model, an external collaborator
supplying the fixed set of variables (as a list carrying the set's
iteration order) and the precomputed overlap table giving for an ordered
pair of variables either no overlap or the pair of character indices that
must agree (spec sections 2 and 3). -/
structure Puzzle where
  vars : List Variable
  overlaps : Variable → Variable → Option (Nat × Nat)

/-- The Domain Store: per variable, the list of still-possible candidate
words (`self.domains`), in iteration order. -/
abbrev Domains := Variable → List Word

/-- An assignment: the `assignment` dict of `backtrack`, as an association
list in insertion order. -/
abbrev Assignment := List (Variable × Word)

/-- An ordered arc `(x, y)` of the AC-3 worklist. -/
abbrev Arc := Variable × Variable

/-- Character of `w` at index `i` (`w[i]` in Python), total via `Option`. -/
def charAt (w : Word) (i : Nat) : Option Char :=
  w.data.get? i

/-- Keys of an assignment (the dict's key view). -/
def keys (a : Assignment) : List Variable :=
  a.map Prod.fst

/-- Point update of the Domain Store (`self.domains[x] = ...`). -/
def domUpdate (d : Domains) (x : Variable) (l : List Word) : Domains :=
  fun v => if v = x then l else d v

/-- Set-removal of every word of `toRemove` from a domain (the
`for word in words_to_remove: domain.remove(word)` loops). -/
def removeWords (dom : List Word) (toRemove : List Word) : List Word :=
  dom.filter (fun w => !(decide (w ∈ toRemove)))

/-- Initial Domain Store: every variable starts with the full word list
(`self.domains = {var: words.copy() for var in variables}`). -/
def initDomains (w : List Word) : Domains :=
  fun _ => w

/-- Embedding of `CrosswordCreator.enforce_node_consistency`: for each
variable, collect the words whose length differs from the variable's
length and remove them. -/
def enforceNodeConsistency (d : Domains) : Domains :=
  fun v => removeWords (d v) ((d v).filter (fun w => decide (w.length ≠ v.length)))

/-- Modelled from the spec: `Crossword.neighbors(x)` of the `crossword`
module (not under `src/`): the variables sharing a defined overlap with
`x` (spec sections 2 and 4.3). -/
def neighbors (p : Puzzle) (x : Variable) : List Variable :=
  p.vars.filter (fun u => decide (u ≠ x) && (p.overlaps u x).isSome)

/-- Degree of a variable: number of neighbors
(`len(self.crossword.neighbors(var))`). -/
def degree (p : Puzzle) (v : Variable) : Nat :=
  (neighbors p v).length

/-- Embedding of `CrosswordCreator.revise`: if `x` and `y` do not overlap
return `(False, unchanged store)`; otherwise remove from `x`'s domain
every word with no supporting word in `y`'s domain at the overlap offsets
and report whether anything was removed. -/
def revise (p : Puzzle) (x y : Variable) (d : Domains) : Bool × Domains :=
  match p.overlaps x y with
  | none => (false, d)
  | some (i, j) =>
    let toRemove := (d x).filter (fun wx => !((d y).any (fun wy => charAt wx i == charAt wy j)))
    (!toRemove.isEmpty, domUpdate d x (removeWords (d x) toRemove))

/-- Arcs `(k, x)` re-enqueued after a revision of `x` succeeded: every
neighbor `k` of `x` except `y`. -/
def enqueueArcs (p : Puzzle) (x y : Variable) : List Arc :=
  ((neighbors p x).filter (fun k => decide (k ≠ y))).map (fun k => (k, x))

/-- Embedding of the worklist loop of `CrosswordCreator.ac3`, with explicit
fuel; `none` marks exhausted fuel (proven unreachable for sufficient fuel).
Pop an arc, revise; on a revision that emptied the domain return
`(False, store)`; on a revision re-enqueue the neighbor arcs. -/
def ac3Loop (p : Puzzle) : Nat → List Arc → Domains → Option (Bool × Domains)
  | _, [], d => some (true, d)
  | 0, _ :: _, _ => none
  | fuel + 1, (x, y) :: rest, d =>
    let r := revise p x y d
    if r.1 then
      if (r.2 x).isEmpty then some (false, r.2)
      else ac3Loop p fuel (rest ++ enqueueArcs p x y) r.2
    else ac3Loop p fuel rest r.2

/-- Total number of remaining candidates across all variables of the
puzzle; the quantity the termination argument of `ac3` strictly shrinks. -/
def totalSize (p : Puzzle) (d : Domains) : Nat :=
  (p.vars.map (fun v => (d v).length)).sum

/-- Fuel sufficient for `ac3Loop` to drain any worklist `q` (proven
below): one step per pending arc plus, for every possible domain
shrink, one step per re-enqueued arc. -/
def ac3Bound (p : Puzzle) (q : List Arc) (d : Domains) : Nat :=
  q.length + totalSize p d * (p.vars.length + 1)

/-- Default seeding of the worklist in `ac3` when `arcs` is `None`: every
ordered pair of distinct variables with a defined overlap, in iteration
order. -/
def initialArcs (p : Puzzle) : List Arc :=
  p.vars.flatMap (fun v1 =>
    (p.vars.filter (fun v2 => decide (v1 ≠ v2) && (p.overlaps v1 v2).isSome)).map
      (fun v2 => (v1, v2)))

/-- Embedding of `CrosswordCreator.ac3` called with default arcs, run with
provably sufficient fuel. -/
def ac3 (p : Puzzle) (d : Domains) : Option (Bool × Domains) :=
  ac3Loop p (ac3Bound p (initialArcs p) d) (initialArcs p) d

/-- Embedding of `CrosswordCreator.assignment_complete`:
`len(assignment) == len(self.crossword.variables)`. -/
def assignmentComplete (p : Puzzle) (a : Assignment) : Bool :=
  a.length == p.vars.length

/-- Embedding of `CrosswordCreator.consistent` (the Consistency Checker):
all assigned words pairwise distinct, every word's length equal to its
variable's length, and assigned variable pairs with a defined overlap
agreeing at the overlap offsets. -/
def consistent (p : Puzzle) (a : Assignment) : Bool :=
  decide (a.map Prod.snd).Nodup &&
  a.all (fun e => e.snd.length == e.fst.length) &&
  a.all (fun e1 => a.all (fun e2 =>
    if e1.fst = e2.fst then true
    else
      match p.overlaps e1.fst e2.fst with
      | none => true
      | some (i, j) => charAt e1.snd i == charAt e2.snd j))

/-- Embedding of `count_eliminated_values` inside
`CrosswordCreator.order_domain_values`: for a candidate `w` of `var`,
the number of candidates this choice would eliminate from the domains of
the unassigned neighbors of `var`. -/
def countEliminated (p : Puzzle) (d : Domains) (var : Variable) (a : Assignment) (w : Word) : Nat :=
  (neighbors p var).foldl (fun c nb =>
    if decide (nb ∈ keys a) then c
    else
      match p.overlaps var nb with
      | none => c
      | some (i, j) => c + ((d nb).filter (fun nw => !(charAt w i == charAt nw j))).length) 0

/-- Stable insertion of `x` after every already-placed element whose key
is not greater; building a sort with Python's `sorted` stability. -/
def insertSorted (key : Word → Nat) (x : Word) : List Word → List Word
  | [] => [x]
  | y :: ys => if key x < key y then x :: y :: ys else y :: insertSorted key x ys

/-- Stable ascending sort by key, embedding Python's `sorted(..., key=...)`. -/
def sortByKey (key : Word → Nat) (l : List Word) : List Word :=
  l.foldl (fun acc x => insertSorted key x acc) []

/-- Embedding of `CrosswordCreator.order_domain_values`: the domain of
`var` sorted ascending (stably) by the least-constraining-value count. -/
def orderDomainValues (p : Puzzle) (d : Domains) (var : Variable) (a : Assignment) : List Word :=
  sortByKey (countEliminated p d var a) (d var)

/-- Python's tuple comparison on the sort key `(remaining, -degree)`. -/
def tupLt (x y : Nat × Int) : Bool :=
  decide (x.1 < y.1 ∨ (x.1 = y.1 ∧ x.2 < y.2))

/-- One comparison step of Python's `min`: keep the current best unless
the next element's key is strictly smaller. -/
def pyStep (key : Variable → Nat × Int) (best c : Variable) : Variable :=
  if tupLt (key c) (key best) then c else best

/-- Python's `min(lst, key=k)`: the first element attaining the minimal
key; `none` models the `ValueError` raised on an empty list. -/
def pyMin (key : Variable → Nat × Int) : List Variable → Option Variable
  | [] => none
  | x :: xs => some (xs.foldl (pyStep key) x)

/-- Sort key of `select_unassigned_variable`:
`(remaining_values, -degree)`. -/
def selectKey (p : Puzzle) (d : Domains) (v : Variable) : Nat × Int :=
  ((d v).length, -(degree p v : Int))

/-- Embedding of `CrosswordCreator.select_unassigned_variable`: minimum of
the unassigned variables under the `(remaining, -degree)` key. -/
def select (p : Puzzle) (d : Domains) (a : Assignment) : Option Variable :=
  pyMin (selectKey p d) (p.vars.filter (fun v => !(decide (v ∈ keys a))))

/-- Removal of the tentative entry, `del assignment[var]`. -/
def eraseKey (a : Assignment) (var : Variable) : Assignment :=
  a.filter (fun e => decide (e.fst ≠ var))

/-- Embedding of the `for value in self.order_domain_values(...)` loop of
`backtrack`, parametric in the recursive call `bt`: tentatively extend the
assignment, check consistency, recurse, and on failure remove the
tentative entry before trying the next candidate.  The threaded
`Assignment × Domains` is the mutable state; `none` propagates an
abnormal outcome of `bt`. -/
def tryValues (p : Puzzle)
    (bt : Assignment → Domains → Option (Option Assignment × Assignment × Domains))
    (var : Variable) :
    List Word → Assignment → Domains → Option (Option Assignment × Assignment × Domains)
  | [], a, d => some (none, a, d)
  | v :: vs, a, d =>
    let a1 := a ++ [(var, v)]
    if consistent p a1 then
      match bt a1 d with
      | none => none
      | some (some r, a2, d2) => some (some r, a2, d2)
      | some (none, a2, d2) => tryValues p bt var vs (eraseKey a2 var) d2
    else tryValues p bt var vs (eraseKey a1 var) d

/-- Embedding of `CrosswordCreator.backtrack` with explicit recursion fuel
(`none` marks exhausted fuel or the `ValueError` of `min` on an empty
candidate list, both proven unreachable under the documented
preconditions): return the assignment if complete, otherwise select an
unassigned variable and try its ordered candidates. -/
def backtrackS (p : Puzzle) : Nat → Assignment → Domains → Option (Option Assignment × Assignment × Domains)
  | 0, _, _ => none
  | fuel + 1, a, d =>
    if assignmentComplete p a then some (some a, a, d)
    else
      match select p d a with
      | none => none
      | some var => tryValues p (backtrackS p fuel) var (orderDomainValues p d var a) a d

/-- Embedding of `CrosswordCreator.solve`: enforce node consistency, run
`ac3` (whose Boolean result is discarded, exactly as in the source), then
run the backtracking search from the empty assignment. -/
def solve (p : Puzzle) (w : List Word) : Option (Option Assignment) :=
  match ac3 p (enforceNodeConsistency (initDomains w)) with
  | none => none
  | some bd => (backtrackS p (p.vars.length + 1) [] bd.snd).map (fun out => out.fst)

/-- Instrumented `solve` recording whether control reaches the
`self.backtrack(dict())` call: the second component is `true` exactly on
the paths that invoke the backtracking search. -/
def solveTrace (p : Puzzle) (w : List Word) : Option (Option Assignment) × Bool :=
  match ac3 p (enforceNodeConsistency (initDomains w)) with
  | none => (none, false)
  | some bd => ((backtrackS p (p.vars.length + 1) [] bd.snd).map (fun out => out.fst), true)

/-- Modelled from the spec: well-formedness of the overlap table, keyed by
an unordered pair (spec section 3): the entry for `(y, x)` is the entry
for `(x, y)` with the offsets swapped. -/
def symmOverlaps (p : Puzzle) : Prop :=
  ∀ x ∈ p.vars, ∀ y ∈ p.vars,
    p.overlaps y x = (p.overlaps x y).map (fun ij => (ij.2, ij.1))

/-- Modelled from the spec: a variable has no self-overlap
(spec section 3). -/
def irreflOverlaps (p : Puzzle) : Prop :=
  ∀ x ∈ p.vars, p.overlaps x x = none

/-- Arc consistency of the ordered pair `(x, y)` with overlap `(i, j)`:
every remaining candidate of `x` has a supporting candidate in `y`'s
domain. -/
def arcOK (d : Domains) (x y : Variable) (i j : Nat) : Prop :=
  ∀ wx ∈ d x, ∃ wy ∈ d y, charAt wx i = charAt wy j

/-- Worklist well-formedness: both endpoints of every pending arc are
puzzle variables. -/
def qWF (p : Puzzle) (q : List Arc) : Prop :=
  ∀ ab ∈ q, ab.1 ∈ p.vars ∧ ab.2 ∈ p.vars

/-- The AC-3 loop invariant: every overlapping ordered pair is pending in
the worklist or already arc-consistent. -/
def allArcsOK (p : Puzzle) (q : List Arc) (d : Domains) : Prop :=
  ∀ x ∈ p.vars, ∀ y ∈ p.vars, ∀ i j,
    p.overlaps x y = some (i, j) → (x, y) ∈ q ∨ arcOK d x y i j

/-- Well-formed assignment state: distinct keys, all of them puzzle
variables. -/
def wfA (p : Puzzle) (a : Assignment) : Prop :=
  (keys a).Nodup ∧ ∀ v ∈ keys a, v ∈ p.vars

/-- A single isolated across slot of length 3. -/
def varC : Variable := { i := 0, j := 0, direction := Direction.across, length := 3 }

/-- Puzzle with the single isolated variable `varC` and no overlaps. -/
def puzzleOne : Puzzle :=
  { vars := [varC], overlaps := fun _ _ => none }

/-- An across slot of length 2 starting at cell (0, 0). -/
def varA : Variable := { i := 0, j := 0, direction := Direction.across, length := 2 }

/-- A down slot of length 2 starting at cell (0, 1). -/
def varB : Variable := { i := 0, j := 1, direction := Direction.down, length := 2 }

/-- Puzzle with two crossing slots: `varA` and `varB` share the cell
(0, 1), character 1 of `varA` and character 0 of `varB`. -/
def puzzleTwo : Puzzle :=
  { vars := [varA, varB]
    overlaps := fun x y =>
      if x = varA ∧ y = varB then some (1, 0)
      else if x = varB ∧ y = varA then some (0, 1)
      else none }

/-- The everywhere-empty Domain Store. -/
def emptyDomains : Domains := fun _ => []

/-- A Domain Store giving every variable the single word "ab". -/
def abDomains : Domains := fun _ => ["ab"]

/-- A Domain Store giving every variable the single word "aa". -/
def aaDomains : Domains := fun _ => ["aa"]

/-- Membership in a domain after set-removal. -/
theorem mem_removeWords {dom toRemove : List Word} {w : Word} :
    w ∈ removeWords dom toRemove ↔ w ∈ dom ∧ w ∉ toRemove := by
  simp [removeWords]

/-- Removing nothing is the identity. -/
theorem removeWords_nil (dom : List Word) : removeWords dom [] = dom := by
  simp [removeWords]

/-- A revision of a non-overlapping pair is a no-op reporting no change. -/
theorem revise_no_overlap {p : Puzzle} {x y : Variable} {d : Domains}
    (h : p.overlaps x y = none) : revise p x y d = (false, d) := by
  simp [revise, h]

/-- A revision never touches the domain of a variable other than `x`. -/
theorem revise_snd_other {p : Puzzle} {x y : Variable} {d : Domains}
    (v : Variable) (hv : v ≠ x) : (revise p x y d).2 v = d v := by
  rcases hov : p.overlaps x y with _ | ⟨i, j⟩ <;>
    simp [revise, hov, domUpdate, hv]

/-- Membership in `x`'s domain after a revision along overlap `(i, j)`:
exactly the previously-present words having a supporting word in `y`'s
domain survive. -/
theorem revise_mem {p : Puzzle} {x y : Variable} {d : Domains} {i j : Nat}
    (hov : p.overlaps x y = some (i, j)) (w : Word) :
    w ∈ (revise p x y d).2 x ↔ w ∈ d x ∧ ∃ wy ∈ d y, charAt w i = charAt wy j := by
  simp only [revise, hov]
  simp [domUpdate, mem_removeWords, List.mem_filter]
  tauto

/-- A revision reporting no change leaves the Domain Store untouched. -/
theorem revise_fst_false {p : Puzzle} {x y : Variable} {d : Domains}
    (h : (revise p x y d).1 = false) : (revise p x y d).2 = d := by
  rcases hov : p.overlaps x y with _ | ⟨i, j⟩
  · simp [revise, hov]
  · simp only [revise, hov, Bool.not_eq_false', List.isEmpty_iff] at h
    simp only [revise, hov, h, removeWords_nil]
    funext v
    simp [domUpdate]
    intro hv
    rw [hv]

/-- A revision reporting a change has a defined overlap. -/
theorem revise_fst_true_overlap {p : Puzzle} {x y : Variable} {d : Domains}
    (h : (revise p x y d).1 = true) : ∃ i j, p.overlaps x y = some (i, j) := by
  rcases hov : p.overlaps x y with _ | ⟨i, j⟩
  · rw [revise_no_overlap hov] at h
    simp at h
  · exact ⟨i, j, rfl⟩

/-- A revision reporting no change along a defined overlap certifies that
every word of `x`'s domain already had support in `y`'s domain. -/
theorem revise_fst_false_arcOK {p : Puzzle} {x y : Variable} {d : Domains} {i j : Nat}
    (hov : p.overlaps x y = some (i, j)) (h : (revise p x y d).1 = false) :
    arcOK d x y i j := by
  intro wx hwx
  simp only [revise, hov, Bool.not_eq_false', List.isEmpty_iff, List.filter_eq_nil_iff] at h
  have := h wx hwx
  simpa using this

/-- After a revision along a defined overlap the pair `(x, y)` is
arc-consistent (the domain of `y` is unchanged when `y ≠ x`). -/
theorem revise_arcOK {p : Puzzle} {x y : Variable} {d : Domains} {i j : Nat}
    (hov : p.overlaps x y = some (i, j)) (hyx : y ≠ x) :
    arcOK (revise p x y d).2 x y i j := by
  intro wx hwx
  rw [revise_mem hov] at hwx
  rw [revise_snd_other y hyx]
  exact hwx.2

/-- Surviving words of a revision were present before. -/
theorem revise_subset {p : Puzzle} {x y : Variable} {d : Domains} {w : Word}
    (h : w ∈ (revise p x y d).2 x) : w ∈ d x := by
  rcases hov : p.overlaps x y with _ | ⟨i, j⟩
  · rw [revise_no_overlap hov] at h
    exact h
  · exact ((revise_mem hov w).mp h).1

/-- A revision reporting a change strictly shrank `x`'s domain. -/
theorem revise_length_lt {p : Puzzle} {x y : Variable} {d : Domains}
    (h : (revise p x y d).1 = true) : ((revise p x y d).2 x).length < (d x).length := by
  obtain ⟨i, j, hov⟩ := revise_fst_true_overlap h
  simp only [revise, hov] at h ⊢
  rcases hts : (d x).filter
      (fun wx => !((d y).any (fun wy => charAt wx i == charAt wy j))) with _ | ⟨t, ts⟩
  · rw [hts] at h
    simp at h
  · have htmem : t ∈ (d x).filter
        (fun wx => !((d y).any (fun wy => charAt wx i == charAt wy j))) := by
      rw [hts]
      exact List.mem_cons_self t ts
    have htdx : t ∈ d x := (List.mem_filter.mp htmem).1
    simp only [domUpdate, if_pos rfl, removeWords]
    apply List.length_filter_lt_length_iff_exists.mpr
    refine ⟨t, htdx, ?_⟩
    simp [htmem]

/-- A revision never grows `x`'s domain. -/
theorem revise_length_le (p : Puzzle) (x y : Variable) (d : Domains) (v : Variable) :
    ((revise p x y d).2 v).length ≤ (d v).length := by
  by_cases hv : v = x
  · subst hv
    rcases hov : p.overlaps v y with _ | ⟨i, j⟩
    · rw [revise_no_overlap hov]
    · simp only [revise, hov, domUpdate, if_pos rfl, removeWords]
      exact List.length_filter_le _ _
  · rw [revise_snd_other v hv]

/-- Irreflexivity of the strict tuple order. -/
theorem tupLt_self (x : Nat × Int) : tupLt x x = false := by
  simp [tupLt]

/-- The running best of Python's `min` is drawn from the candidates. -/
theorem pyMin_foldl_mem (key : Variable → Nat × Int) (xs : List Variable) (b : Variable) :
    xs.foldl (pyStep key) b ∈ b :: xs := by
  induction xs generalizing b with
  | nil => simp
  | cons c xs ih =>
    rw [List.foldl_cons]
    by_cases hcb : tupLt (key c) (key b) = true
    · have hs : pyStep key b c = c := by simp [pyStep, hcb]
      rw [hs]
      rcases List.mem_cons.mp (ih c) with h | h <;> simp [List.mem_cons, h]
    · have hs : pyStep key b c = b := by simp [pyStep, hcb]
      rw [hs]
      rcases List.mem_cons.mp (ih b) with h | h <;> simp [List.mem_cons, h]

/-- No candidate's key is strictly below the key of the running best of
Python's `min`. -/
theorem pyMin_foldl_min (key : Variable → Nat × Int) (xs : List Variable) (b : Variable) :
    ∀ u ∈ b :: xs, tupLt (key u) (key (xs.foldl (pyStep key) b)) = false := by
  induction xs generalizing b with
  | nil =>
    intro u hu
    simp only [List.mem_singleton] at hu
    subst hu
    simp [tupLt_self]
  | cons c xs ih =>
    intro u hu
    rw [List.foldl_cons]
    by_cases hcb : tupLt (key c) (key b) = true
    · have hs : pyStep key b c = c := by simp [pyStep, hcb]
      rw [hs]
      have hmin := ih c
      rcases List.mem_cons.mp hu with rfl | hu
      · have h1 := hmin c (List.mem_cons_self c xs)
        simp only [tupLt, decide_eq_true_eq, decide_eq_false_iff_not] at h1 hcb ⊢
        omega
      · exact hmin u hu
    · have hs : pyStep key b c = b := by simp [pyStep, hcb]
      rw [hs]
      have hmin := ih b
      rcases List.mem_cons.mp hu with rfl | hu
      · exact hmin u (List.mem_cons_self u xs)
      · rcases List.mem_cons.mp hu with rfl | hu
        · have h1 := hmin b (List.mem_cons_self b xs)
          simp only [tupLt, decide_eq_true_eq, decide_eq_false_iff_not] at h1 hcb ⊢
          omega
        · exact hmin u (List.mem_cons.mpr (Or.inr hu))

/-- Python's `min` returns a member of the list attaining the minimal key
(first such member, in particular no key is strictly smaller). -/
theorem pyMin_spec {key : Variable → Nat × Int} {l : List Variable} {x : Variable}
    (h : pyMin key l = some x) :
    x ∈ l ∧ ∀ u ∈ l, tupLt (key u) (key x) = false := by
  cases l with
  | nil => simp [pyMin] at h
  | cons b xs =>
    simp only [pyMin, Option.some_inj] at h
    subst h
    exact ⟨pyMin_foldl_mem key xs b, pyMin_foldl_min key xs b⟩

/-- Python's `min` succeeds on a non-empty list. -/
theorem pyMin_isSome {key : Variable → Nat × Int} {l : List Variable}
    (h : l ≠ []) : (pyMin key l).isSome = true := by
  cases l with
  | nil => exact absurd rfl h
  | cons b xs => simp [pyMin]

/-- Characterization of neighborhood membership. -/
theorem mem_neighbors {p : Puzzle} {x a : Variable} :
    a ∈ neighbors p x ↔ a ∈ p.vars ∧ a ≠ x ∧ (p.overlaps a x).isSome := by
  simp [neighbors, List.mem_filter]

/-- Neighbors are puzzle variables. -/
theorem neighbors_subset {p : Puzzle} {x a : Variable} (h : a ∈ neighbors p x) :
    a ∈ p.vars :=
  (mem_neighbors.mp h).1

/-- The neighbor list is never longer than the variable list. -/
theorem neighbors_length_le (p : Puzzle) (x : Variable) :
    (neighbors p x).length ≤ p.vars.length :=
  List.length_filter_le _ _

/-- The re-enqueued arc list is never longer than the variable list. -/
theorem enqueueArcs_length_le (p : Puzzle) (x y : Variable) :
    (enqueueArcs p x y).length ≤ p.vars.length := by
  unfold enqueueArcs
  rw [List.length_map]
  exact le_trans (List.length_filter_le _ _) (neighbors_length_le p x)

/-- An eligible neighbor arc is re-enqueued. -/
theorem enqueueArcs_mem_of {p : Puzzle} {x y a : Variable}
    (ha : a ∈ neighbors p x) (hay : a ≠ y) : (a, x) ∈ enqueueArcs p x y := by
  simp only [enqueueArcs, List.mem_map, List.mem_filter]
  exact ⟨a, ⟨ha, by simp [hay]⟩, rfl⟩

/-- Endpoints of re-enqueued arcs are puzzle variables. -/
theorem enqueueArcs_endpoints {p : Puzzle} {x y : Variable} {ab : Arc}
    (hx : x ∈ p.vars) (h : ab ∈ enqueueArcs p x y) :
    ab.1 ∈ p.vars ∧ ab.2 ∈ p.vars := by
  simp only [enqueueArcs, List.mem_map, List.mem_filter] at h
  obtain ⟨k, ⟨hk, _⟩, hab⟩ := h
  rw [← hab]
  exact ⟨neighbors_subset hk, hx⟩

/-- Every ordered overlapping pair of distinct variables is seeded into the
default worklist. -/
theorem mem_initialArcs {p : Puzzle} {x y : Variable} (hx : x ∈ p.vars) (hy : y ∈ p.vars)
    (hxy : x ≠ y) (hov : (p.overlaps x y).isSome = true) : (x, y) ∈ initialArcs p := by
  simp only [initialArcs, List.mem_flatMap, List.mem_map, List.mem_filter]
  exact ⟨x, hx, y, ⟨hy, by simp [hxy, hov]⟩, rfl⟩

/-- Endpoints of seeded arcs are puzzle variables. -/
theorem initialArcs_endpoints {p : Puzzle} {ab : Arc} (h : ab ∈ initialArcs p) :
    ab.1 ∈ p.vars ∧ ab.2 ∈ p.vars := by
  simp only [initialArcs, List.mem_flatMap, List.mem_map, List.mem_filter] at h
  obtain ⟨v1, hv1, v2, ⟨hv2, _⟩, hab⟩ := h
  rw [← hab]
  exact ⟨hv1, hv2⟩

/-- The default worklist is well formed. -/
theorem initialArcs_qWF (p : Puzzle) : qWF p (initialArcs p) :=
  fun _ hab => initialArcs_endpoints hab

/-- A mapped sum strictly decreases when one summand strictly decreases and
none grows. -/
theorem sum_map_lt {l : List Variable} {f g : Variable → Nat}
    (hle : ∀ v ∈ l, f v ≤ g v) {x : Variable} (hx : x ∈ l) (hlt : f x < g x) :
    (l.map f).sum < (l.map g).sum := by
  induction l with
  | nil => simp at hx
  | cons a l ih =>
    simp only [List.map_cons, List.sum_cons]
    have hrestle : (l.map f).sum ≤ (l.map g).sum :=
      List.sum_le_sum (by
        intro v hv
        exact hle v (List.mem_cons.mpr (Or.inr hv)))
    rcases List.mem_cons.mp hx with rfl | hx
    · omega
    · have hale := hle a (List.mem_cons_self a l)
      have := ih (fun v hv => hle v (List.mem_cons.mpr (Or.inr hv))) hx
      omega

/-- A revision reporting a change strictly shrinks the total domain size. -/
theorem totalSize_revise_lt {p : Puzzle} {x y : Variable} {d : Domains}
    (hx : x ∈ p.vars) (h : (revise p x y d).1 = true) :
    totalSize p (revise p x y d).2 < totalSize p d :=
  sum_map_lt (fun v _ => revise_length_le p x y d v) hx (revise_length_lt h)

/-- The `ac3` worklist loop drains any well-formed worklist within the
computed fuel bound: the loop terminates. -/
theorem ac3Loop_isSome (p : Puzzle) :
    ∀ fuel q d, qWF p q → ac3Bound p q d ≤ fuel → (ac3Loop p fuel q d).isSome = true := by
  intro fuel
  induction fuel with
  | zero =>
    intro q d _ hb
    cases q with
    | nil => simp [ac3Loop]
    | cons ab rest =>
      exfalso
      simp only [ac3Bound, List.length_cons] at hb
      omega
  | succ fuel ih =>
    intro q d hq hb
    cases q with
    | nil => simp [ac3Loop]
    | cons ab rest =>
      obtain ⟨x, y⟩ := ab
      simp only [ac3Loop]
      by_cases hr : (revise p x y d).1 = true
      · rw [if_pos hr]
        by_cases he : ((revise p x y d).2 x).isEmpty = true
        · rw [if_pos he]
          simp
        · rw [if_neg he]
          have hxv : x ∈ p.vars := (hq (x, y) (List.mem_cons_self _ _)).1
          apply ih
          · intro ab hab
            rcases List.mem_append.mp hab with hab | hab
            · exact hq ab (List.mem_cons.mpr (Or.inr hab))
            · exact enqueueArcs_endpoints hxv hab
          · have hts : totalSize p (revise p x y d).2 < totalSize p d :=
              totalSize_revise_lt hxv hr
            have henq : (enqueueArcs p x y).length ≤ p.vars.length :=
              enqueueArcs_length_le p x y
            have hkey : totalSize p (revise p x y d).2 * (p.vars.length + 1) +
                (p.vars.length + 1) ≤ totalSize p d * (p.vars.length + 1) := by
              have h1 : totalSize p (revise p x y d).2 + 1 ≤ totalSize p d := hts
              calc totalSize p (revise p x y d).2 * (p.vars.length + 1) + (p.vars.length + 1)
                  = (totalSize p (revise p x y d).2 + 1) * (p.vars.length + 1) := by ring
                _ ≤ totalSize p d * (p.vars.length + 1) :=
                    Nat.mul_le_mul_right _ h1
            simp only [ac3Bound, List.length_cons, List.length_append] at hb ⊢
            linarith
      · rw [if_neg hr]
        have hd : (revise p x y d).2 = d := revise_fst_false (by simpa using hr)
        rw [hd]
        apply ih
        · intro ab hab
          exact hq ab (List.mem_cons.mpr (Or.inr hab))
        · simp only [ac3Bound, List.length_cons] at hb ⊢
          omega

/-- The full `ac3` entry point always completes. -/
theorem ac3_isSome (p : Puzzle) (d : Domains) : (ac3 p d).isSome = true :=
  ac3Loop_isSome p _ _ _ (initialArcs_qWF p) le_rfl

/-- When the `ac3` loop reports failure, some puzzle variable's domain has
been emptied. -/
theorem ac3Loop_false_empty (p : Puzzle) :
    ∀ fuel q d d2, qWF p q → ac3Loop p fuel q d = some (false, d2) →
      ∃ x ∈ p.vars, d2 x = [] := by
  intro fuel
  induction fuel with
  | zero =>
    intro q d d2 _ h
    cases q with
    | nil =>
      simp only [ac3Loop, Option.some_inj, Prod.mk.injEq] at h
      exact absurd h.1 (by simp)
    | cons ab rest => simp [ac3Loop] at h
  | succ fuel ih =>
    intro q d d2 hq h
    cases q with
    | nil =>
      simp only [ac3Loop, Option.some_inj, Prod.mk.injEq] at h
      exact absurd h.1 (by simp)
    | cons ab rest =>
      obtain ⟨x, y⟩ := ab
      simp only [ac3Loop] at h
      by_cases hr : (revise p x y d).1 = true
      · rw [if_pos hr] at h
        by_cases he : ((revise p x y d).2 x).isEmpty = true
        · rw [if_pos he] at h
          simp only [Option.some_inj, Prod.mk.injEq] at h
          refine ⟨x, (hq (x, y) (List.mem_cons_self _ _)).1, ?_⟩
          rw [← h.2]
          exact List.isEmpty_iff.mp he
        · rw [if_neg he] at h
          have hxv : x ∈ p.vars := (hq (x, y) (List.mem_cons_self _ _)).1
          apply ih _ _ _ _ h
          intro ab hab
          rcases List.mem_append.mp hab with hab | hab
          · exact hq ab (List.mem_cons.mpr (Or.inr hab))
          · exact enqueueArcs_endpoints hxv hab
      · rw [if_neg hr] at h
        have hd : (revise p x y d).2 = d := revise_fst_false (by simpa using hr)
        rw [hd] at h
        apply ih _ _ _ _ h
        intro ab hab
        exact hq ab (List.mem_cons.mpr (Or.inr hab))

/-- Preservation of the AC-3 loop invariant across one successful revision
of the popped arc `(x, y)`: every overlapping pair is pending in the new
worklist or arc-consistent in the revised store. -/
theorem allArcsOK_step {p : Puzzle} (hs : symmOverlaps p) (hi : irreflOverlaps p)
    {q : List Arc} {d : Domains} {x y : Variable}
    (hq : qWF p ((x, y) :: q)) (hinv : allArcsOK p ((x, y) :: q) d)
    (hr : (revise p x y d).1 = true) :
    allArcsOK p (q ++ enqueueArcs p x y) (revise p x y d).2 := by
  obtain ⟨i0, j0, hov0⟩ := revise_fst_true_overlap hr
  have hxv : x ∈ p.vars := (hq (x, y) (List.mem_cons_self _ _)).1
  have hyv : y ∈ p.vars := (hq (x, y) (List.mem_cons_self _ _)).2
  have hxy : x ≠ y := by
    intro e
    rw [← e, hi x hxv] at hov0
    exact Option.noConfusion hov0
  intro a hav b hbv i j hovab
  by_cases hbx : b = x
  · subst hbx
    by_cases hax : a = b
    · exfalso
      rw [hax, hi b hbv] at hovab
      exact Option.noConfusion hovab
    · by_cases hay : a = y
      · subst hay
        rcases hinv a hav b hbv i j hovab with hmem | hok
        · rcases List.mem_cons.mp hmem with heq | hmem
          · exfalso
            rw [Prod.mk.injEq] at heq
            exact hax heq.1
          · exact Or.inl (List.mem_append.mpr (Or.inl hmem))
        · right
          have hba : b ≠ a := fun e => hax e.symm
          have hxyov : p.overlaps b a = some (j, i) := by
            have hsym := hs a hav b hbv
            rw [hovab] at hsym
            simpa using hsym
          intro wy hwy
          rw [revise_snd_other a hax] at hwy
          obtain ⟨wx, hwx, heq⟩ := hok wy hwy
          refine ⟨wx, ?_, heq⟩
          rw [revise_mem hxyov]
          exact ⟨hwx, wy, hwy, heq.symm⟩
      · left
        apply List.mem_append.mpr
        right
        apply enqueueArcs_mem_of _ hay
        exact mem_neighbors.mpr ⟨hav, hax, by rw [hovab]; rfl⟩
  · by_cases hax : a = x
    · subst hax
      rcases hinv a hav b hbv i j hovab with hmem | hok
      · rcases List.mem_cons.mp hmem with heq | hmem
        · rw [Prod.mk.injEq] at heq
          obtain ⟨-, hby⟩ := heq
          subst hby
          right
          exact revise_arcOK hovab (fun e => hxy e.symm)
        · exact Or.inl (List.mem_append.mpr (Or.inl hmem))
      · right
        intro wx hwx
        have hwx' : wx ∈ d a := revise_subset hwx
        obtain ⟨wy, hwy, heq⟩ := hok wx hwx'
        rw [revise_snd_other b hbx]
        exact ⟨wy, hwy, heq⟩
    · rcases hinv a hav b hbv i j hovab with hmem | hok
      · rcases List.mem_cons.mp hmem with heq | hmem
        · exact absurd (congrArg Prod.fst heq) hax
        · exact Or.inl (List.mem_append.mpr (Or.inl hmem))
      · right
        intro wx hwx
        rw [revise_snd_other a hax] at hwx
        rw [revise_snd_other b hbx]
        exact hok wx hwx

/-- Partial correctness of the `ac3` worklist loop: a run that reports
success leaves every overlapping ordered pair of puzzle variables
arc-consistent. -/
theorem ac3Loop_arcOK (p : Puzzle) (hs : symmOverlaps p) (hi : irreflOverlaps p) :
    ∀ fuel q d d2, qWF p q → allArcsOK p q d → ac3Loop p fuel q d = some (true, d2) →
      ∀ x ∈ p.vars, ∀ y ∈ p.vars, ∀ i j, p.overlaps x y = some (i, j) →
        arcOK d2 x y i j := by
  intro fuel
  induction fuel with
  | zero =>
    intro q d d2 hq hinv h x hx y hy i j hov
    cases q with
    | nil =>
      simp only [ac3Loop, Option.some_inj, Prod.mk.injEq] at h
      rw [← h.2]
      rcases hinv x hx y hy i j hov with hmem | hok
      · exact absurd hmem (List.not_mem_nil _)
      · exact hok
    | cons ab rest => simp [ac3Loop] at h
  | succ fuel ih =>
    intro q d d2 hq hinv h
    cases q with
    | nil =>
      intro x hx y hy i j hov
      simp only [ac3Loop, Option.some_inj, Prod.mk.injEq] at h
      rw [← h.2]
      rcases hinv x hx y hy i j hov with hmem | hok
      · exact absurd hmem (List.not_mem_nil _)
      · exact hok
    | cons ab rest =>
      obtain ⟨x, y⟩ := ab
      simp only [ac3Loop] at h
      by_cases hr : (revise p x y d).1 = true
      · rw [if_pos hr] at h
        by_cases he : ((revise p x y d).2 x).isEmpty = true
        · rw [if_pos he] at h
          simp only [Option.some_inj, Prod.mk.injEq] at h
          exact absurd h.1 (by simp)
        · rw [if_neg he] at h
          have hxv : x ∈ p.vars := (hq (x, y) (List.mem_cons_self _ _)).1
          apply ih _ _ _ ?_ ?_ h
          · intro ab hab
            rcases List.mem_append.mp hab with hab | hab
            · exact hq ab (List.mem_cons.mpr (Or.inr hab))
            · exact enqueueArcs_endpoints hxv hab
          · exact allArcsOK_step hs hi hq hinv hr
      · rw [if_neg hr] at h
        have hrf : (revise p x y d).1 = false := by simpa using hr
        have hd : (revise p x y d).2 = d := revise_fst_false hrf
        rw [hd] at h
        apply ih _ _ _ ?_ ?_ h
        · intro ab hab
          exact hq ab (List.mem_cons.mpr (Or.inr hab))
        · intro a hav b hbv i j hovab
          rcases hinv a hav b hbv i j hovab with hmem | hok
          · rcases List.mem_cons.mp hmem with heq | hmem
            · right
              have hax : a = x := congrArg Prod.fst heq
              have hby : b = y := congrArg Prod.snd heq
              subst hax
              subst hby
              exact revise_fst_false_arcOK hovab hrf
            · exact Or.inl hmem
          · exact Or.inr hok

/-- Partial correctness of the full `ac3` entry point: a successful run
leaves every overlapping ordered pair of puzzle variables arc-consistent. -/
theorem ac3_arcOK {p : Puzzle} {d d2 : Domains} (hs : symmOverlaps p) (hi : irreflOverlaps p)
    (h : ac3 p d = some (true, d2)) :
    ∀ x ∈ p.vars, ∀ y ∈ p.vars, ∀ i j, p.overlaps x y = some (i, j) →
      arcOK d2 x y i j := by
  apply ac3Loop_arcOK p hs hi _ _ _ _ (initialArcs_qWF p) ?_ h
  intro x hx y hy i j hov
  left
  apply mem_initialArcs hx hy ?_ (by rw [hov]; rfl)
  intro e
  rw [← e, hi x hx] at hov
  exact Option.noConfusion hov

/-- The selected variable is an unassigned puzzle variable. -/
theorem select_mem_unassigned {p : Puzzle} {d : Domains} {a : Assignment} {s : Variable}
    (h : select p d a = some s) : s ∈ p.vars ∧ s ∉ keys a := by
  obtain ⟨hmem, -⟩ := pyMin_spec h
  have hm := List.mem_filter.mp hmem
  refine ⟨hm.1, ?_⟩
  simpa using hm.2

/-- No unassigned variable beats the selected variable's sort key. -/
theorem select_min {p : Puzzle} {d : Domains} {a : Assignment} {s : Variable}
    (h : select p d a = some s) :
    ∀ u ∈ p.vars, u ∉ keys a → tupLt (selectKey p d u) (selectKey p d s) = false := by
  obtain ⟨-, hmin⟩ := pyMin_spec h
  intro u hu hua
  apply hmin
  simp [List.mem_filter, hu, hua]

/-- Keys after a tentative extension. -/
theorem keys_append (a : Assignment) (var : Variable) (v : Word) :
    keys (a ++ [(var, v)]) = keys a ++ [var] := by
  simp [keys]

/-- Removing the tentative entry restores the assignment to its pre-trial
contents. -/
theorem eraseKey_append_of_not_mem {a : Assignment} {var : Variable} {v : Word}
    (h : var ∉ keys a) : eraseKey (a ++ [(var, v)]) var = a := by
  unfold eraseKey
  rw [List.filter_append]
  have h1 : a.filter (fun e => decide (e.fst ≠ var)) = a := by
    apply List.filter_eq_self.mpr
    intro e he
    simp only [decide_eq_true_eq]
    intro hef
    exact h (hef ▸ List.mem_map.mpr ⟨e, he, rfl⟩)
  have h2 : ([(var, v)] : Assignment).filter (fun e => decide (e.fst ≠ var)) = [] := by
    simp
  rw [h1, h2, List.append_nil]

/-- A well-formed assignment stays well formed under a tentative extension
by a fresh puzzle variable. -/
theorem wfA_extend {p : Puzzle} {a : Assignment} {var : Variable} (h : wfA p a)
    (hv : var ∈ p.vars) (hna : var ∉ keys a) (v : Word) :
    wfA p (a ++ [(var, v)]) := by
  constructor
  · rw [keys_append]
    exact List.Nodup.append h.1 (List.nodup_singleton var)
      (by simpa [List.disjoint_singleton] using hna)
  · intro u hu
    rw [keys_append] at hu
    rcases List.mem_append.mp hu with hu | hu
    · exact h.2 u hu
    · simp only [List.mem_singleton] at hu
      subst hu
      exact hv

/-- Restoration for the candidate loop: if every recursive call restores
the threaded state on failure, so does the whole loop. -/
theorem tryValues_restore {p : Puzzle}
    {bt : Assignment → Domains → Option (Option Assignment × Assignment × Domains)}
    (hbt : ∀ a1 d1 out, bt a1 d1 = some out → out.1 = none → out.2.1 = a1 ∧ out.2.2 = d1)
    {var : Variable} :
    ∀ vs a d out, var ∉ keys a → tryValues p bt var vs a d = some out → out.1 = none →
      out.2.1 = a ∧ out.2.2 = d := by
  intro vs
  induction vs with
  | nil =>
    intro a d out _ h _
    simp only [tryValues, Option.some_inj] at h
    rw [← h]
    exact ⟨rfl, rfl⟩
  | cons v vs ih =>
    intro a d out hvar h hn
    simp only [tryValues] at h
    by_cases hc : consistent p (a ++ [(var, v)]) = true
    · rw [if_pos hc] at h
      rcases hbtout : bt (a ++ [(var, v)]) d with _ | ⟨rr, a2, d2⟩
      · rw [hbtout] at h
        exact Option.noConfusion h
      · rw [hbtout] at h
        cases rr with
        | some r2 =>
          dsimp only at h
          simp only [Option.some_inj] at h
          rw [← h] at hn
          exact Option.noConfusion hn
        | none =>
          dsimp only at h
          have ha2 : a2 = a ++ [(var, v)] := (hbt _ _ _ hbtout rfl).1
          have hd2 : d2 = d := (hbt _ _ _ hbtout rfl).2
          rw [ha2, eraseKey_append_of_not_mem hvar] at h
          have h2 := ih a d2 out hvar h hn
          exact ⟨h2.1, h2.2.trans hd2⟩
    · rw [if_neg hc] at h
      rw [eraseKey_append_of_not_mem hvar] at h
      exact ih a d out hvar h hn

/-- Restoration across a failing `backtrack` call: the assignment and the
Domain Store come back exactly as they were at entry. -/
theorem backtrackS_restore (p : Puzzle) :
    ∀ fuel a d out, backtrackS p fuel a d = some out → out.1 = none →
      out.2.1 = a ∧ out.2.2 = d := by
  intro fuel
  induction fuel with
  | zero =>
    intro a d out h _
    exact Option.noConfusion h
  | succ fuel ih =>
    intro a d out h hn
    simp only [backtrackS] at h
    by_cases hcomp : assignmentComplete p a = true
    · rw [if_pos hcomp] at h
      simp only [Option.some_inj] at h
      rw [← h] at hn
      exact Option.noConfusion hn
    · rw [if_neg hcomp] at h
      rcases hsel : select p d a with _ | var
      · rw [hsel] at h
        exact Option.noConfusion h
      · rw [hsel] at h
        have hvar : var ∉ keys a := (select_mem_unassigned hsel).2
        exact tryValues_restore (fun a1 d1 o => ih a1 d1 o) _ a d out hvar h hn

/-- The empty assignment is consistent. -/
theorem consistent_nil (p : Puzzle) : consistent p [] = true := by
  simp [consistent]

/-- The empty assignment is well formed. -/
theorem wfA_nil (p : Puzzle) : wfA p [] :=
  ⟨List.nodup_nil, fun v hv => absurd hv (List.not_mem_nil v)⟩

/-- Soundness of the candidate loop: a returned solution is consistent,
well formed and complete, provided every recursive call guarantees the
same and restores state on failure. -/
theorem tryValues_sound {p : Puzzle}
    {bt : Assignment → Domains → Option (Option Assignment × Assignment × Domains)}
    (hbt : ∀ a1 d1 out, wfA p a1 → consistent p a1 = true → bt a1 d1 = some out →
      ∀ r, out.1 = some r →
        consistent p r = true ∧ wfA p r ∧ r.length = p.vars.length)
    (hbtres : ∀ a1 d1 out, bt a1 d1 = some out → out.1 = none →
      out.2.1 = a1 ∧ out.2.2 = d1)
    {var : Variable} (hv : var ∈ p.vars) :
    ∀ vs a d out, wfA p a → var ∉ keys a → tryValues p bt var vs a d = some out →
      ∀ r, out.1 = some r →
        consistent p r = true ∧ wfA p r ∧ r.length = p.vars.length := by
  intro vs
  induction vs with
  | nil =>
    intro a d out _ _ h r hr
    simp only [tryValues, Option.some_inj] at h
    rw [← h] at hr
    exact Option.noConfusion hr
  | cons v vs ih =>
    intro a d out hwf hvar h r hr
    simp only [tryValues] at h
    by_cases hc : consistent p (a ++ [(var, v)]) = true
    · rw [if_pos hc] at h
      rcases hbtout : bt (a ++ [(var, v)]) d with _ | ⟨rr, a2, d2⟩
      · rw [hbtout] at h
        exact Option.noConfusion h
      · rw [hbtout] at h
        cases rr with
        | some r2 =>
          dsimp only at h
          simp only [Option.some_inj] at h
          rw [← h] at hr
          have hr2 : r2 = r := Option.some_inj.mp hr
          subst hr2
          exact hbt _ _ _ (wfA_extend hwf hv hvar v) hc hbtout r2 rfl
        | none =>
          dsimp only at h
          have ha2 : a2 = a ++ [(var, v)] := (hbtres _ _ _ hbtout rfl).1
          rw [ha2, eraseKey_append_of_not_mem hvar] at h
          exact ih a d2 out hwf hvar h r hr
    · rw [if_neg hc] at h
      rw [eraseKey_append_of_not_mem hvar] at h
      exact ih a d out hwf hvar h r hr

/-- Soundness of the backtracking search: any returned solution is
consistent, well formed and complete. -/
theorem backtrackS_sound (p : Puzzle) :
    ∀ fuel a d out, wfA p a → consistent p a = true →
      backtrackS p fuel a d = some out →
      ∀ r, out.1 = some r →
        consistent p r = true ∧ wfA p r ∧ r.length = p.vars.length := by
  intro fuel
  induction fuel with
  | zero =>
    intro a d out _ _ h
    exact Option.noConfusion h
  | succ fuel ih =>
    intro a d out hwf hcons h r hr
    simp only [backtrackS] at h
    by_cases hcomp : assignmentComplete p a = true
    · rw [if_pos hcomp] at h
      simp only [Option.some_inj] at h
      rw [← h] at hr
      have har : a = r := Option.some_inj.mp hr
      subst har
      refine ⟨hcons, hwf, ?_⟩
      simpa [assignmentComplete] using hcomp
    · rw [if_neg hcomp] at h
      rcases hsel : select p d a with _ | var
      · rw [hsel] at h
        exact Option.noConfusion h
      · rw [hsel] at h
        obtain ⟨hvv, hvk⟩ := select_mem_unassigned hsel
        exact tryValues_sound (fun a1 d1 o => ih a1 d1 o)
          (fun a1 d1 o => backtrackS_restore p fuel a1 d1 o) hvv _ a d out hwf hvk h r hr

/-- A well-formed assignment is no longer than the (duplicate-free)
variable list. -/
theorem wfA_length_le {p : Puzzle} {a : Assignment}
    (hwf : wfA p a) : a.length ≤ p.vars.length := by
  have h1 : (keys a).length ≤ p.vars.length :=
    List.Subperm.length_le (List.Nodup.subperm hwf.1 (fun u hu => hwf.2 u hu))
  have h2 : (keys a).length = a.length := by simp [keys]
  omega

/-- Totality of the candidate loop, given totality and restoration of the
recursive call on the one-longer assignments actually passed to it. -/
theorem tryValues_isSome {p : Puzzle}
    {bt : Assignment → Domains → Option (Option Assignment × Assignment × Domains)}
    {var : Variable} {a : Assignment}
    (hbt : ∀ v d1, wfA p (a ++ [(var, v)]) → bt (a ++ [(var, v)]) d1 ≠ none)
    (hbtres : ∀ a1 d1 out, bt a1 d1 = some out → out.1 = none →
      out.2.1 = a1 ∧ out.2.2 = d1)
    (hv : var ∈ p.vars) (hwf : wfA p a) (hvar : var ∉ keys a) :
    ∀ vs d, tryValues p bt var vs a d ≠ none := by
  intro vs
  induction vs with
  | nil =>
    intro d
    simp [tryValues]
  | cons v vs ih =>
    intro d
    simp only [tryValues]
    by_cases hc : consistent p (a ++ [(var, v)]) = true
    · rw [if_pos hc]
      rcases hbtout : bt (a ++ [(var, v)]) d with _ | ⟨rr, a2, d2⟩
      · exact absurd hbtout (hbt v d (wfA_extend hwf hv hvar v))
      · cases rr with
        | some r2 => simp
        | none =>
          dsimp only
          have ha2 : a2 = a ++ [(var, v)] := (hbtres _ _ _ hbtout rfl).1
          rw [ha2, eraseKey_append_of_not_mem hvar]
          exact ih d2
    · rw [if_neg hc]
      rw [eraseKey_append_of_not_mem hvar]
      exact ih d

/-- Totality of the backtracking search: with fuel exceeding the number of
still-unassigned variables, a well-formed call never aborts — in
particular the selection step never faces an empty candidate list. -/
theorem backtrackS_isSome (p : Puzzle) (hnd : p.vars.Nodup) :
    ∀ fuel a d, wfA p a → p.vars.length + 1 ≤ fuel + a.length →
      backtrackS p fuel a d ≠ none := by
  intro fuel
  induction fuel with
  | zero =>
    intro a d hwf hfuel
    exfalso
    have := wfA_length_le hwf
    omega
  | succ fuel ih =>
    intro a d hwf hfuel
    simp only [backtrackS]
    by_cases hcomp : assignmentComplete p a = true
    · rw [if_pos hcomp]
      simp
    · rw [if_neg hcomp]
      have hlen : a.length < p.vars.length := by
        have h1 := wfA_length_le hwf
        have h2 : a.length ≠ p.vars.length := by
          simpa [assignmentComplete] using hcomp
        omega
      have hex : p.vars.filter (fun v => !(decide (v ∈ keys a))) ≠ [] := by
        intro hnil
        rw [List.filter_eq_nil_iff] at hnil
        have hsub : p.vars ⊆ keys a := by
          intro v hv
          have := hnil v hv
          simpa using this
        have h3 := List.Subperm.length_le (List.Nodup.subperm hnd hsub)
        have h4 : (keys a).length = a.length := by simp [keys]
        omega
      rcases hsel : select p d a with _ | var
      · exfalso
        have hsome := @pyMin_isSome (selectKey p d) _ hex
        unfold select at hsel
        rw [hsel] at hsome
        exact Bool.noConfusion hsome
      · obtain ⟨hvv, hvk⟩ := select_mem_unassigned hsel
        apply tryValues_isSome ?_ (fun a1 d1 o => backtrackS_restore p fuel a1 d1 o)
          hvv hwf hvk
        intro v d1 hwf1
        apply ih _ d1 hwf1
        simp only [List.length_append, List.length_cons, List.length_nil]
        omega

/-- When some puzzle variable's domain is empty, the top-level backtracking
call fails immediately: the empty-domain variable is selected first and has
no candidates to try. -/
theorem backtrackS_empty_domain {p : Puzzle} {d : Domains} {x : Variable}
    (hx : x ∈ p.vars) (hdx : d x = []) :
    backtrackS p (p.vars.length + 1) [] d = some (none, [], d) := by
  have hne : p.vars ≠ [] := by
    intro e
    rw [e] at hx
    exact List.not_mem_nil x hx
  have hlen : p.vars.length ≠ 0 := by
    simpa [List.length_eq_zero] using hne
  simp only [backtrackS]
  have hcomp : assignmentComplete p ([] : Assignment) = false := by
    simp [assignmentComplete]
    omega
  rw [hcomp]
  simp only [Bool.false_eq_true, if_false]
  rcases hsel : select p d ([] : Assignment) with _ | var
  · exfalso
    have hfe : p.vars.filter (fun v => !(decide (v ∈ keys ([] : Assignment)))) = p.vars := by
      apply List.filter_eq_self.mpr
      intro v hv
      simp [keys]
    have hfne : p.vars.filter (fun v => !(decide (v ∈ keys ([] : Assignment)))) ≠ [] := by
      rw [hfe]
      exact hne
    have hsome := @pyMin_isSome (selectKey p d) _ hfne
    unfold select at hsel
    rw [hsel] at hsome
    exact Bool.noConfusion hsome
  · have hmin := select_min hsel x hx (by simp [keys])
    have hvlen : (d var).length = 0 := by
      simp only [selectKey, tupLt, decide_eq_false_iff_not] at hmin
      rw [hdx] at hmin
      simp only [List.length_nil] at hmin
      omega
    have hord : orderDomainValues p d var [] = [] := by
      unfold orderDomainValues
      rw [List.length_eq_zero.mp hvlen]
      rfl
    dsimp only
    rw [hord]
    simp [tryValues]

/-- C1: for every puzzle (with duplicate-free variable set) and word list,
if `solve` returns an assignment rather than the no-solution signal, that
assignment satisfies the Consistency Checker (pairwise-distinct words,
exact lengths, agreeing overlaps) and assigns a word to every variable of
the puzzle exactly once. -/
theorem C1_solve_complete_consistent (p : Puzzle) (w : List Word) (r : Assignment)
    (hnd : p.vars.Nodup) (h : solve p w = some (some r)) :
    consistent p r = true ∧ ∀ v ∈ p.vars, (keys r).count v = 1 := by
  unfold solve at h
  rcases hac : ac3 p (enforceNodeConsistency (initDomains w)) with _ | bd
  · rw [hac] at h
    exact Option.noConfusion h
  · rw [hac] at h
    dsimp only at h
    rcases hbt : backtrackS p (p.vars.length + 1) [] bd.2 with _ | out
    · rw [hbt] at h
      exact Option.noConfusion h
    · rw [hbt] at h
      simp only [Option.map_some', Option.some_inj] at h
      obtain ⟨hcons, hwf, hlen⟩ :=
        backtrackS_sound p _ [] bd.2 out (wfA_nil p) (consistent_nil p) hbt r h
      refine ⟨hcons, ?_⟩
      have hsub : keys r ⊆ p.vars := fun u hu => hwf.2 u hu
      have hsp := List.Nodup.subperm hwf.1 hsub
      have hkl : (keys r).length = r.length := by simp [keys]
      have hperm : (keys r).Perm p.vars := hsp.perm_of_length_le (by omega)
      intro v hv
      rw [hperm.count_eq]
      exact List.count_eq_one_of_mem hnd hv

/-- C1 witness: on the one-variable puzzle with word list ["cat"], `solve`
returns the assignment mapping the variable to "cat", which the theorem
certifies consistent and covering every variable exactly once. -/
theorem C1_witness :
    consistent puzzleOne [(varC, "cat")] = true ∧
      ∀ v ∈ puzzleOne.vars, (keys [(varC, "cat")]).count v = 1 :=
  C1_solve_complete_consistent puzzleOne ["cat"] [(varC, "cat")] (by decide) (by decide)

/-- C2 counterexample: on the crossing puzzle with word list
["ab", "cd"], the propagation pass empties a domain and reports failure,
yet control still reaches the backtracking search (the instrumented flag
is `true`), refuting the claim that `solve` returns without invoking
backtracking. -/
theorem C2_counterexample :
    (ac3 puzzleTwo (enforceNodeConsistency (initDomains ["ab", "cd"]))).map Prod.fst =
        some false ∧
      (solveTrace puzzleTwo ["ab", "cd"]).2 = true := by
  constructor
  · decide
  · decide

/-- C2 (amended): if the propagation pass reports a domain emptied,
`solve` does return the no-solution signal — but it reaches it by invoking
the backtracking search, which fails immediately on the emptied domain;
the Boolean result of `ac3` itself is discarded by `solve`. -/
theorem C2_ac3_failure_solve_none (p : Puzzle) (w : List Word)
    (h : (ac3 p (enforceNodeConsistency (initDomains w))).map Prod.fst = some false) :
    solve p w = some none := by
  rcases hac : ac3 p (enforceNodeConsistency (initDomains w)) with _ | bd
  · rw [hac] at h
    exact Option.noConfusion h
  · rw [hac] at h
    simp only [Option.map_some', Option.some_inj] at h
    obtain ⟨b2, d2⟩ := bd
    dsimp only at h
    subst h
    have hac2 := hac
    unfold ac3 at hac2
    obtain ⟨x, hx, hdx⟩ :=
      ac3Loop_false_empty p _ _ _ _ (initialArcs_qWF p) hac2
    unfold solve
    rw [hac]
    dsimp only
    rw [backtrackS_empty_domain hx hdx]
    rfl

/-- C2 witness: the amended theorem applied to the crossing puzzle whose
propagation fails: `solve` returns the no-solution signal. -/
theorem C2_witness : solve puzzleTwo ["ab", "cd"] = some none :=
  C2_ac3_failure_solve_none puzzleTwo ["ab", "cd"] (by decide)

/-- C3 counterexample: node consistency empties the isolated variable's
domain (no word of length 3 exists); the default-arcs propagation pass
then reports success while that variable's domain is empty, refuting the
claimed non-emptiness of all domains after a successful `ac3` run. -/
theorem C3_counterexample :
    varC ∈ puzzleOne.vars ∧
      (ac3 puzzleOne (enforceNodeConsistency (initDomains ["ab"]))).map
          (fun r => (r.1, r.2 varC)) = some (true, ([] : List Word)) := by
  constructor
  · decide
  · decide

/-- C3 (amended): for a well-formed overlap table, if `ac3` run with the
default initial arcs returns success then every ordered pair of puzzle
variables with a defined overlap is arc-consistent: each remaining
candidate of `x` has a supporting candidate in `y`'s domain (domains
already empty before the run may however remain empty despite success). -/
theorem C3_ac3_arc_consistency (p : Puzzle) (d d2 : Domains)
    (hs : symmOverlaps p) (hi : irreflOverlaps p)
    (h : ac3 p d = some (true, d2)) :
    ∀ x ∈ p.vars, ∀ y ∈ p.vars, ∀ i j, p.overlaps x y = some (i, j) →
      ∀ wx ∈ d2 x, ∃ wy ∈ d2 y, charAt wx i = charAt wy j := by
  intro x hx y hy i j hov
  exact ac3_arcOK hs hi h x hx y hy i j hov

/-- C3 witness: on the crossing puzzle seeded with the single word "aa"
everywhere, propagation succeeds without pruning and the surviving
candidate "aa" of varA has a supporting candidate in varB's domain at the
overlap offsets (1, 0). -/
theorem C3_witness :
    ∃ wy ∈ (domUpdate (domUpdate aaDomains varA ["aa"]) varB ["aa"]) varB,
      charAt "aa" 1 = charAt wy 0 :=
  C3_ac3_arc_consistency puzzleTwo aaDomains
    (domUpdate (domUpdate aaDomains varA ["aa"]) varB ["aa"])
    (by unfold symmOverlaps; decide) (by unfold irreflOverlaps; decide) rfl
    varA (by decide) varB (by decide) 1 0 (by decide) "aa" (by decide)

/-- C4: for distinct variables `x`, `y`: without an overlap, `revise`
changes nothing and returns `False`; with overlap `(i, j)` it removes from
`x`'s domain exactly the words with no supporting word in `y`'s domain,
leaves every other variable's domain unchanged, and returns `True` exactly
when `x`'s domain changed. -/
theorem C4_revise_characterization (p : Puzzle) (x y : Variable) (d : Domains)
    (_hxy : x ≠ y) :
    (p.overlaps x y = none → revise p x y d = (false, d)) ∧
    ∀ i j, p.overlaps x y = some (i, j) →
      ((revise p x y d).1 = true ↔ (revise p x y d).2 x ≠ d x) ∧
      (∀ w, w ∈ (revise p x y d).2 x ↔
        w ∈ d x ∧ ∃ wy ∈ d y, charAt w i = charAt wy j) ∧
      ∀ v, v ≠ x → (revise p x y d).2 v = d v := by
  constructor
  · intro hov
    exact revise_no_overlap hov
  · intro i j hov
    refine ⟨?_, revise_mem hov, fun v hv => revise_snd_other v hv⟩
    constructor
    · intro h1 heq
      have hlt := revise_length_lt h1
      rw [heq] at hlt
      omega
    · intro hne
      by_contra h1
      have hf : (revise p x y d).1 = false := by simpa using h1
      exact hne (congrFun (revise_fst_false hf) x)

/-- C4 witness: the characterization applied to the crossing pair of the
two-variable puzzle with word "ab" in both domains. -/
theorem C4_witness :
    (puzzleTwo.overlaps varA varB = none →
      revise puzzleTwo varA varB abDomains = (false, abDomains)) ∧
    ∀ i j, puzzleTwo.overlaps varA varB = some (i, j) →
      ((revise puzzleTwo varA varB abDomains).1 = true ↔
        (revise puzzleTwo varA varB abDomains).2 varA ≠ abDomains varA) ∧
      (∀ w, w ∈ (revise puzzleTwo varA varB abDomains).2 varA ↔
        w ∈ abDomains varA ∧ ∃ wy ∈ abDomains varB, charAt w i = charAt wy j) ∧
      ∀ v, v ≠ varA → (revise puzzleTwo varA varB abDomains).2 v = abDomains v :=
  C4_revise_characterization puzzleTwo varA varB abDomains (by decide)

/-- C5: a `backtrack` call that returns failure leaves the assignment
mapping exactly as it was at entry (every tried candidate's tentative
entry having been removed) and leaves every variable's domain in the
Domain Store byte-for-byte equal to its pre-call contents. -/
theorem C5_backtrack_restores (p : Puzzle) (fuel : Nat) (a : Assignment) (d : Domains)
    (out : Option Assignment × Assignment × Domains)
    (h : backtrackS p fuel a d = some out) (hn : out.1 = none) :
    out.2.1 = a ∧ out.2.2 = d :=
  backtrackS_restore p fuel a d out h hn

/-- C5 witness: the failing search on the one-variable puzzle with empty
domains returns with the entry assignment and the entry Domain Store. -/
theorem C5_witness :
    ((none, ([] : Assignment), emptyDomains) :
        Option Assignment × Assignment × Domains).2.1 = ([] : Assignment) ∧
      ((none, ([] : Assignment), emptyDomains) :
        Option Assignment × Assignment × Domains).2.2 = emptyDomains :=
  C5_backtrack_restores puzzleOne 2 [] emptyDomains (none, [], emptyDomains) rfl rfl

/-- C6: after the node-consistency pass, a word remains in a variable's
domain exactly when it was there before and its length equals the
variable's length: every wrong-length word is removed and no
correct-length word is removed. -/
theorem C6_node_consistency (d : Domains) (v : Variable) (w : Word) :
    w ∈ enforceNodeConsistency d v ↔ w ∈ d v ∧ w.length = v.length := by
  unfold enforceNodeConsistency
  rw [mem_removeWords]
  simp only [List.mem_filter, decide_eq_true_eq]
  tauto

/-- C7 counterexample: the two word lists are permutations of each other
(the same word set under two iteration orders), the puzzle is unchanged,
and yet `solve` returns two different assignments — the result depends on
the word set's incidental iteration order, which Python's per-run hash
randomization does not keep fixed across runs. -/
theorem C7_counterexample :
    (["cat", "dog"] : List Word).Perm ["dog", "cat"] ∧
      solve puzzleOne ["cat", "dog"] ≠ solve puzzleOne ["dog", "cat"] := by
  constructor
  · exact List.Perm.swap "dog" "cat" []
  · decide

/-- C7 (amended): `solve` is a deterministic function of the puzzle and
the word list in its given iteration order: two runs on identical inputs
(including that order) return the same result; word lists equal only as
sets may produce different assignments. -/
theorem C7_deterministic_same_order (p : Puzzle) (w1 w2 : List Word) (h : w1 = w2) :
    solve p w1 = solve p w2 := by
  rw [h]

/-- C7 witness: two runs on the identical word list agree. -/
theorem C7_witness : solve puzzleOne ["cat"] = solve puzzleOne ["cat"] :=
  C7_deterministic_same_order puzzleOne ["cat"] ["cat"] rfl

/-- C8: whenever `select_unassigned_variable` returns a variable, that
variable is an unassigned puzzle variable whose remaining domain size is
minimal among all unassigned variables, and among the unassigned variables
of that minimal domain size it has maximal degree. -/
theorem C8_select_mrv_degree (p : Puzzle) (d : Domains) (a : Assignment) (s : Variable)
    (h : select p d a = some s) :
    s ∈ p.vars ∧ s ∉ keys a ∧
      ∀ u ∈ p.vars, u ∉ keys a →
        (d s).length ≤ (d u).length ∧
          ((d u).length = (d s).length → degree p u ≤ degree p s) := by
  obtain ⟨hs1, hs2⟩ := select_mem_unassigned h
  refine ⟨hs1, hs2, ?_⟩
  intro u hu hua
  have hmin := select_min h u hu hua
  simp only [selectKey, tupLt, decide_eq_false_iff_not] at hmin
  constructor
  · omega
  · intro he
    omega

/-- C8 witness: on the crossing puzzle with empty assignment, selection
returns the first variable, certified minimal-domain and maximal-degree
among the unassigned. -/
theorem C8_witness :
    varA ∈ puzzleTwo.vars ∧ varA ∉ keys ([] : Assignment) ∧
      ∀ u ∈ puzzleTwo.vars, u ∉ keys ([] : Assignment) →
        (abDomains varA).length ≤ (abDomains u).length ∧
          ((abDomains u).length = (abDomains varA).length →
            degree puzzleTwo u ≤ degree puzzleTwo varA) :=
  C8_select_mrv_degree puzzleTwo abDomains [] varA rfl

/-- C9: the `ac3` worklist loop terminates on every well-formed worklist —
the computed fuel bound (queue length plus total domain size times the
per-shrink re-enqueue budget) is never exhausted — and in particular the
default-arcs `ac3` entry point always completes. -/
theorem C9_ac3_terminates (p : Puzzle) (q : List Arc) (d : Domains) (hq : qWF p q) :
    ac3Loop p (ac3Bound p q d) q d ≠ none ∧ ac3 p d ≠ none := by
  constructor
  · intro h
    have hsome := ac3Loop_isSome p (ac3Bound p q d) q d hq le_rfl
    rw [h] at hsome
    exact Bool.noConfusion hsome
  · intro h
    have hsome := ac3_isSome p d
    rw [h] at hsome
    exact Bool.noConfusion hsome

/-- C9 witness: termination on the crossing puzzle with the single arc
(varA, varB) pending and singleton domains. -/
theorem C9_witness :
    ac3Loop puzzleTwo (ac3Bound puzzleTwo [(varA, varB)] abDomains)
        [(varA, varB)] abDomains ≠ none ∧
      ac3 puzzleTwo abDomains ≠ none :=
  C9_ac3_terminates puzzleTwo [(varA, varB)] abDomains (by unfold qWF; decide)

/-- C10: for a partial assignment whose keys form a strict subset of the
puzzle's (duplicate-free) variables, the unassigned set is non-empty and
`select_unassigned_variable` returns a variable (the `min`-on-empty error
branch is unreachable); correspondingly the full `solve` pipeline, which
invokes selection only on incomplete assignments, never aborts
abnormally. -/
theorem C10_select_total_solve_safe (p : Puzzle) (d : Domains) (a : Assignment)
    (w : List Word) (hnd : p.vars.Nodup)
    (_hsub : ∀ v ∈ keys a, v ∈ p.vars)
    (hstrict : ∃ v ∈ p.vars, v ∉ keys a) :
    (select p d a).isSome = true ∧ solve p w ≠ none := by
  constructor
  · obtain ⟨v, hv, hva⟩ := hstrict
    have hne : p.vars.filter (fun u => !(decide (u ∈ keys a))) ≠ [] := by
      intro hnil
      have hvm : v ∈ p.vars.filter (fun u => !(decide (u ∈ keys a))) := by
        simp [List.mem_filter, hv, hva]
      rw [hnil] at hvm
      exact List.not_mem_nil v hvm
    exact pyMin_isSome hne
  · unfold solve
    rcases hac : ac3 p (enforceNodeConsistency (initDomains w)) with _ | bd
    · exfalso
      have hsome := ac3_isSome p (enforceNodeConsistency (initDomains w))
      rw [hac] at hsome
      exact Bool.noConfusion hsome
    · dsimp only
      intro h
      rw [Option.map_eq_none'] at h
      exact backtrackS_isSome p hnd _ [] bd.2 (wfA_nil p) (by simp) h

/-- C10 witness: selection succeeds on the one-variable puzzle with the
empty assignment, and `solve` completes normally on word list ["cat"]. -/
theorem C10_witness :
    (select puzzleOne emptyDomains ([] : Assignment)).isSome = true ∧
      solve puzzleOne ["cat"] ≠ none :=
  C10_select_total_solve_safe puzzleOne emptyDomains [] ["cat"]
    (by decide) (by decide) (by decide)

end CrosswordCSP
